import Mathlib

/-!
Verification of the race-entry extraction and scoring/ranking engine.

Shallow embedding of the Python sources `src/app.py` and
`src/scrape_and_predict.py`.  The two files share the extraction, scoring
and ranking logic; they differ only in the composite weight preset, which
is modelled here by the `Weights` parameter (with the two presets
`appWeights` and `cliWeights`).  Machine floats are idealised as exact
real arithmetic; runtime exceptions of the ranking step (`min`/`max` of
an empty sequence, division by zero) are modelled by `Option.none`.
HTML documents are abstracted to the data the BeautifulSoup selectors
hand to the parsing code: a history-table row is its list of cell texts,
an entry-table row is a record of the selected cell/link texts.
-/

/-! **Data model** (the dataclasses `RaceResult`, `Horse`, `RaceInfo`). -/

/-- `RaceResult` dataclass of both sources (one historical run). -/
structure RaceResult where
  date : String := ""
  course : String := ""
  race_name : String := ""
  distance : ℤ := 0
  track_type : String := ""
  finish : ℤ := 0
  total_horses : ℤ := 0
  time : String := ""
  odds : ℝ := 0
  popularity : ℤ := 0

/-- `Horse` dataclass of both sources (one entrant). -/
structure Horse where
  number : ℤ := 0
  gate : ℤ := 0
  name : String := ""
  sex : String := ""
  age : ℤ := 0
  jockey : String := ""
  weight_carry : ℝ := 0
  trainer : String := ""
  horse_weight : ℤ := 0
  odds : ℝ := 0
  popularity : ℤ := 0
  horse_id : String := ""
  results : List RaceResult := []

/-- `RaceInfo` dataclass of both sources. -/
structure RaceInfo where
  race_id : String := ""
  race_name : String := ""
  race_number : ℤ := 0
  course : String := ""
  distance : ℤ := 0
  track_type : String := ""
  track_condition : String := ""
  weather : String := ""
  date : String := ""
  start_time : String := ""

/-! **String-parsing helpers.**  These model the Python primitives used by
the extractors on the (ASCII-numeral) cell texts that occur in the pages:
`str.isdigit`, `int(...)` on digit strings, `float(...)` on plain decimal
numerals, and the two regular expressions `([芝ダ障])(\d{3,4})` and
`horse/(\d+)`. -/

/-- Python `str.isdigit()` restricted to ASCII numerals: non-empty and
all characters are decimal digits. -/
def isDigits (s : String) : Bool := !s.isEmpty && s.toList.all Char.isDigit

/-- Numeric value of a list of decimal digit characters. -/
def digitsVal (cs : List Char) : ℕ := cs.foldl (fun a c => 10 * a + (c.toNat - 48)) 0

/-- Python `int(s)` for a digit string `s`. -/
def natOfDigits (s : String) : ℕ := digitsVal s.toList

/-- Python `int(s)` inside a `try`: succeeds exactly on digit strings
(the sources only feed it stripped cell texts). -/
def intParse? (s : String) : Option ℤ :=
  if isDigits s then some (natOfDigits s) else none

/-- Python `float(s)` inside a `try`, for plain decimal numerals
`digits` or `digits.digits`; any other text fails (models the
`except: pass` fallback to the zero default). -/
def decimalParse? (s : String) : Option ℚ :=
  match s.split (· = '.') with
  | [a] => if isDigits a then some (natOfDigits a : ℚ) else none
  | [a, b] =>
      if isDigits a && isDigits b then
        some ((natOfDigits a : ℚ) + (natOfDigits b : ℚ) / 10 ^ b.length)
      else none
  | _ => none

/-- Search for the pattern `([芝ダ障])(\d{3,4})`: first surface glyph
followed by at least three digits; the (greedy) number group takes at
most four digits. -/
def findSurfDist : List Char → Option (Char × ℕ)
  | [] => none
  | c :: rest =>
    if c = '芝' ∨ c = 'ダ' ∨ c = '障' then
      let ds := rest.takeWhile Char.isDigit
      if 3 ≤ ds.length then some (c, digitsVal (ds.take 4)) else findSurfDist rest
    else findSurfDist rest

/-- Search for the pattern `horse/(\d+)` in an href and return the digit
group. -/
def findHorseId : List Char → Option String
  | [] => none
  | c :: rest =>
    if (c :: rest).take 6 = "horse/".toList then
      let ds := (c :: rest).drop 6 |>.takeWhile Char.isDigit
      if ds.isEmpty then findHorseId rest else some (String.mk ds)
    else findHorseId rest

/-- Search for the first occurrence of `牡`, `牝` or `セ` (the sex glyph
regex of `parse_race_page`). -/
def findSexGlyph (s : String) : Option Char :=
  s.toList.find? (fun c => c == '牡' || c == '牝' || c == 'セ')

/-- Search for the first digit run (the age regex `(\d+)`). -/
def firstDigitRun : List Char → Option (List Char)
  | [] => none
  | c :: rest =>
    if c.isDigit then some (c :: rest.takeWhile Char.isDigit)
    else firstDigitRun rest

/-- The full-match pattern `^(\d{2}\.\d)$` used by the weight-to-carry
cell scan. -/
def isWeightPat (s : String) : Bool :=
  match s.toList with
  | [a, b, c, d] => a.isDigit && b.isDigit && c == '.' && d.isDigit
  | _ => false

/-! **HistoryExtractor** (`parse_horse_history`).  A table row is its
list of cell texts (the `td` texts, links already flattened to their
text, exactly what `get_text(strip=True)` produces). -/

/-- Cell access `cells[i]` (the code indexes only after checking
`len(cells) < 15`, so the default is never used on accepted rows). -/
def cellAt (cells : List String) (i : ℕ) : String := cells.getD i ""

/-- One iteration of the row loop of `parse_horse_history`: rows with
fewer than 15 cells are skipped, a row whose finish cell (index 11) is
not a digit string is skipped (`continue`), otherwise a `RaceResult` is
built with per-field fallbacks to the zero defaults. -/
noncomputable def parseResultRow (cells : List String) : Option RaceResult :=
  if cells.length < 15 then none
  else
    let finishText := cellAt cells 11
    if isDigits finishText then
      let sd := findSurfDist (cellAt cells 14).toList
      some
        { date := cellAt cells 0
          course := cellAt cells 1
          race_name := cellAt cells 4
          total_horses := (intParse? (cellAt cells 6)).getD 0
          finish := (natOfDigits finishText : ℤ)
          track_type :=
            match sd with
            | some (c, _) => if c = 'ダ' then "ダート" else "芝"
            | none => ""
          distance :=
            match sd with
            | some (_, n) => (n : ℤ)
            | none => 0
          odds := (((decimalParse? (cellAt cells 9)).getD 0 : ℚ) : ℝ)
          popularity := (intParse? (cellAt cells 10)).getD 0 }
    else none

/-- `parse_horse_history`: the row loop followed by `results[:20]`. -/
noncomputable def parse_horse_history (rows : List (List String)) : List RaceResult :=
  (rows.filterMap parseResultRow).take 20

/-! **EntryExtractor** (`parse_race_page`, entrant-row loop).  A row of
the entry table is abstracted to the texts its BeautifulSoup selectors
return: `none` models a selector that found nothing. -/

/-- The `span.HorseName a` link of a row: title attribute, text, href. -/
structure NameLink where
  title : String := ""
  text : String := ""
  href : String := ""

/-- One `tr.HorseList` row, as seen through the selectors of
`parse_race_page`. -/
structure RawRow where
  wakuSpan : Option String := none
  umaban : Option String := none
  nameLink : Option NameLink := none
  barei : Option String := none
  cells : List String := []
  jockeyLink : Option String := none
  trainerLink : Option String := none
  oddsSpan : Option String := none
  ninki : Option String := none

/-- The body of the entrant-row loop of `parse_race_page`: builds a
`Horse` from one row, every field independently tolerant. -/
noncomputable def parseHorseRow (row : RawRow) : Horse :=
  { gate :=
      match row.wakuSpan with
      | some t => (intParse? t).getD 0
      | none => 0
    number :=
      match row.umaban with
      | some t => if isDigits t then (natOfDigits t : ℤ) else 0
      | none => 0
    name :=
      match row.nameLink with
      | some nl => if nl.title ≠ "" then nl.title else nl.text
      | none => ""
    horse_id :=
      match row.nameLink with
      | some nl => (findHorseId nl.href.toList).getD ""
      | none => ""
    sex :=
      match row.barei with
      | some t =>
        match findSexGlyph t with
        | some c => String.mk [c]
        | none => ""
      | none => ""
    age :=
      match row.barei with
      | some t =>
        match firstDigitRun t.toList with
        | some ds => (digitsVal ds : ℤ)
        | none => 0
      | none => 0
    weight_carry :=
      match row.cells.find? isWeightPat with
      | some s => (((decimalParse? s).getD 0 : ℚ) : ℝ)
      | none => 0
    jockey := row.jockeyLink.getD ""
    trainer := row.trainerLink.getD ""
    odds :=
      match row.oddsSpan with
      | some t => if t = "---.-" then 0 else (((decimalParse? t).getD 0 : ℚ) : ℝ)
      | none => 0
    popularity :=
      match row.ninki with
      | some t => if isDigits t then (natOfDigits t : ℤ) else 0
      | none => 0
    results := [] }

/-- The entrant list produced by `parse_race_page`: each row is parsed,
and a horse is appended only when `horse.name and horse.number > 0`. -/
noncomputable def parse_race_page_horses (rows : List RawRow) : List Horse :=
  (rows.map parseHorseRow).filter (fun h => decide (h.name ≠ "" ∧ 0 < h.number))

/-! **ScoringEngine** (`calculate_score`).  The two sources compute the
same eight sub-scores and differ only in the weights of the final
composite; the weight preset is the `Weights` parameter. -/

/-- Composite weight preset (one per source file). -/
structure Weights where
  recent : ℝ
  basic : ℝ
  distance : ℝ
  course : ℝ
  draw : ℝ
  odds : ℝ
  stability : ℝ
  weight : ℝ

/-- The preset hard-coded in `src/app.py` (GUI variant). -/
noncomputable def appWeights : Weights :=
  ⟨0.40, 0.15, 0.11, 0.08, 0.05, 0.10, 0.07, 0.04⟩

/-- The preset hard-coded in `src/scrape_and_predict.py` (CLI variant). -/
noncomputable def cliWeights : Weights :=
  ⟨0.35, 0.15, 0.12, 0.08, 0.08, 0.10, 0.07, 0.05⟩

/-- The eight named sub-scores (the `score_details` dict). -/
structure ScoreDetails where
  recent : ℝ
  basic : ℝ
  distance : ℝ
  course : ℝ
  draw : ℝ
  odds : ℝ
  stability : ℝ
  weight : ℝ

/-- Return value of `calculate_score`: the composite and the details. -/
structure ScoreData where
  total : ℝ
  details : ScoreDetails

/-- Per-run score `max(0, 100 - (finish - 1) * 12)`. -/
noncomputable def finishScore (fin : ℤ) : ℝ := max 0 (100 - ((fin : ℝ) - 1) * 12)

/-- The fixed recency weights `[0.35, 0.25, 0.2, 0.12, 0.08]`. -/
noncomputable def innerWeights : List ℝ := [0.35, 0.25, 0.2, 0.12, 0.08]

/-- Recent-form sub-score: weighted sum of the per-run scores of the
five most recent runs; `50` for an empty history. -/
noncomputable def recent_score (horse : Horse) : ℝ :=
  if horse.results.isEmpty then 50
  else ((horse.results.take 5).zipWith (fun r w => finishScore r.finish * w) innerWeights).sum

/-- Win/place-rate sub-score `win_rate * 50 + place_rate * 50`. -/
noncomputable def basic_score (horse : Horse) : ℝ :=
  if horse.results.isEmpty then 50
  else
    ((horse.results.countP (fun r => decide (r.finish = 1)) : ℝ) / horse.results.length) * 50 +
    ((horse.results.countP (fun r => decide (r.finish ≤ 3)) : ℝ) / horse.results.length) * 50

/-- Distance-fit sub-score: place rate over runs within 100 m of the
current distance. -/
noncomputable def distance_score (horse : Horse) (race_info : RaceInfo) : ℝ :=
  if horse.results.isEmpty = false ∧ race_info.distance ≠ 0 then
    let same_dist := horse.results.filter (fun r => decide (|r.distance - race_info.distance| ≤ 100))
    if same_dist.isEmpty = false then
      ((same_dist.countP (fun r => decide (r.finish ≤ 3)) : ℝ) / same_dist.length) * 100
    else 50
  else 50

/-- Course-fit sub-score: place rate over runs whose venue text contains
the current venue name as a substring (Python `in`). -/
noncomputable def course_score (horse : Horse) (race_info : RaceInfo) : ℝ :=
  if horse.results.isEmpty = false ∧ race_info.course ≠ "" then
    let same_course := horse.results.filter (fun r => decide (race_info.course.toList <:+: r.course.toList))
    if same_course.isEmpty = false then
      ((same_course.countP (fun r => decide (r.finish ≤ 3)) : ℝ) / same_course.length) * 100
    else 50
  else 50

/-- Post-position sub-score `(1 - position * inner_bias) * 100`. -/
noncomputable def draw_score (horse : Horse) (race_info : RaceInfo) (all_horses : List Horse) : ℝ :=
  if horse.number ≠ 0 ∧ 0 < all_horses.length then
    let position : ℝ := ((horse.number : ℝ) - 1) / ((max ((all_horses.length : ℤ) - 1) 1 : ℤ) : ℝ)
    let inner_bias : ℝ := if race_info.distance ≤ 1400 then 0.2 else 0.1
    (1 - position * inner_bias) * 100
  else 50

/-- Odds-implied sub-score `max(0, 100 - log(odds) * 18)` behind the
truthiness guard `horse.odds and horse.odds > 0`. -/
noncomputable def odds_score (horse : Horse) : ℝ :=
  if horse.odds ≠ 0 ∧ 0 < horse.odds then max 0 (100 - Real.log horse.odds * 18) else 50

/-- Sample standard deviation (`statistics.stdev`). -/
noncomputable def stdev (l : List ℝ) : ℝ :=
  Real.sqrt ((l.map (fun x => (x - l.sum / l.length) ^ 2)).sum / ((l.length : ℝ) - 1))

/-- Consistency sub-score `max(0, 100 - stdev(last ≤ 10 finishes) * 12)`,
requiring at least three recorded runs. -/
noncomputable def stability_score (horse : Horse) : ℝ :=
  if 3 ≤ horse.results.length then
    let finishes : List ℝ := (horse.results.take 10).map (fun r => (r.finish : ℝ))
    let std := if 1 < finishes.length then stdev finishes else 0
    max 0 (100 - std * 12)
  else 50

/-- Weight-relative sub-score `50 - 8 * (weight - field average)`,
clamped to `[0, 100]`. -/
noncomputable def weight_score (horse : Horse) (all_horses : List Horse) : ℝ :=
  let ws := (all_horses.filter (fun h2 => decide (0 < h2.weight_carry))).map Horse.weight_carry
  if ws.isEmpty = false ∧ horse.weight_carry ≠ 0 then
    max 0 (min 100 (50 - (horse.weight_carry - ws.sum / ws.length) * 8))
  else 50

/-- `calculate_score`: the eight sub-scores and their weighted sum. -/
noncomputable def calculate_score (W : Weights) (horse : Horse) (race_info : RaceInfo)
    (all_horses : List Horse) : ScoreData :=
  let d : ScoreDetails :=
    { recent := recent_score horse
      basic := basic_score horse
      distance := distance_score horse race_info
      course := course_score horse race_info
      draw := draw_score horse race_info all_horses
      odds := odds_score horse
      stability := stability_score horse
      weight := weight_score horse all_horses }
  { total := d.recent * W.recent + d.basic * W.basic + d.distance * W.distance +
      d.course * W.course + d.draw * W.draw + d.odds * W.odds +
      d.stability * W.stability + d.weight * W.weight
    details := d }

/-! **RankingEngine** (`predict`).  Python raises `ValueError` on
`min([])`/`max([])` when the entrant list is empty, and would raise
`ZeroDivisionError` on `exp_scores[i] / total_exp` if the exponential
total were zero; both faults are modelled by `none`. -/

/-- One entry of the `predictions` list before normalisation: the horse,
its composite score and the score details. -/
structure Prediction where
  horse : Horse
  score : ℝ
  details : ScoreDetails

/-- One entry of the final `predictions` list (the Forecast record). -/
structure Forecast where
  horse : Horse
  score : ℝ
  details : ScoreDetails
  norm_score : ℝ
  win_prob : ℝ
  rank : ℕ
  expected_value : ℝ

/-- Score one horse against the field (`calculate_score` call inside
`predict`). -/
noncomputable def mkPred (W : Weights) (race_info : RaceInfo) (all_horses : List Horse)
    (h : Horse) : Prediction :=
  let sd := calculate_score W h race_info all_horses
  ⟨h, sd.total, sd.details⟩

/-- The stable descending comparison used by
`predictions.sort(key=lambda x: x.score, reverse=True)`. -/
def sortRel (a b : Prediction) : Prop := b.score ≤ a.score

noncomputable instance : DecidableRel sortRel := fun a b => inferInstanceAs (Decidable (b.score ≤ a.score))

instance : IsTotal Prediction sortRel := ⟨fun a b => le_total b.score a.score⟩

instance : IsTrans Prediction sortRel := ⟨fun _ _ _ h1 h2 => le_trans h2 h1⟩

/-- The stable descending sort of the predictions (Python `list.sort` is
stable; any stable sort computes the same list, here realised by
insertion sort). -/
noncomputable def sortPreds (l : List Prediction) : List Prediction := List.insertionSort sortRel l

/-- Python `min` of a non-empty list (the `[]` value is junk: `min([])`
raises, which the caller models as `none`). -/
noncomputable def pyMin : List ℝ → ℝ
  | [] => 0
  | x :: xs => xs.foldl min x

/-- Python `max` of a non-empty list. -/
noncomputable def pyMax : List ℝ → ℝ
  | [] => 0
  | x :: xs => xs.foldl max x

/-- Min-max normalisation with the degenerate branch
`0.5 if max_s == min_s` (`norm = (s - min_s) / (max_s - min_s) if
max_s > min_s else 0.5`). -/
noncomputable def minmaxNorm (mn mx s : ℝ) : ℝ :=
  if mx > mn then (s - mn) / (mx - mn) else 0.5

/-- The scores of the sorted prediction list. -/
noncomputable def scoresOf (l : List Prediction) : List ℝ := l.map Prediction.score

/-- `total_exp`: the sum of `exp(norm / 0.3)` over the field. -/
noncomputable def totalExp (l : List Prediction) : ℝ :=
  (l.map (fun q => Real.exp (minmaxNorm (pyMin (scoresOf l)) (pyMax (scoresOf l)) q.score / 0.3))).sum

/-- Final loop body of `predict`: decorates the `i`-th sorted prediction
with its normalised score, softmax win probability, 1-based rank and
expected value. -/
noncomputable def buildF (mn mx T : ℝ) (iq : ℕ × Prediction) : Forecast :=
  { horse := iq.2.horse
    score := iq.2.score
    details := iq.2.details
    norm_score := minmaxNorm mn mx iq.2.score
    win_prob := Real.exp (minmaxNorm mn mx iq.2.score / 0.3) / T
    rank := iq.1 + 1
    expected_value :=
      if iq.2.horse.odds ≠ 0 ∧ 0 < iq.2.horse.odds then
        Real.exp (minmaxNorm mn mx iq.2.score / 0.3) / T * iq.2.horse.odds
      else 0 }

/-- The decorated forecast list for a non-empty sorted prediction list. -/
noncomputable def forecastsOf (l : List Prediction) : List Forecast :=
  l.enum.map (buildF (pyMin (scoresOf l)) (pyMax (scoresOf l)) (totalExp l))

/-- Normalisation, softmax and decoration step of `predict` on the
sorted prediction list.  `none` models the `ValueError` of `min([])` on
an empty field and the (never reached) `ZeroDivisionError` of the
softmax division. -/
noncomputable def rankForecasts : List Prediction → Option (List Forecast)
  | [] => none
  | p :: ps =>
    if totalExp (p :: ps) = 0 then none
    else some (forecastsOf (p :: ps))

/-- `predict`: score every horse against the field, sort stably by
descending composite score, then normalise and decorate. -/
noncomputable def predict (W : Weights) (horses : List Horse) (race_info : RaceInfo) :
    Option (List Forecast) :=
  rankForecasts (sortPreds (horses.map (mkPred W race_info horses)))

/-! **Concrete inputs** used by the counterexamples and witnesses. -/

/-- A default race record. -/
def ri0 : RaceInfo := {}

/-- An entrant with posted odds `0.5`. -/
noncomputable def horseHalfOdds : Horse := { name := "A", number := 1, odds := 0.5 }

/-- An entrant with unknown odds (`0`). -/
noncomputable def horseNoOdds : Horse := { name := "B", number := 1 }

/-- An entrant with posted odds `1.0`. -/
noncomputable def horseEvenOdds : Horse := { name := "C", number := 1, odds := 1 }

/-- The entrant of the recent-form example: five runs with finishing
positions `[1, 2, 1, 3, 2]`, most recent first, and no other data. -/
noncomputable def horseRecentForm : Horse :=
  { name := "D", number := 1,
    results := [{ finish := 1 }, { finish := 2 }, { finish := 1 }, { finish := 3 }, { finish := 2 }] }

/-- A 15-cell history row whose finish cell (index 11) is the digit
string `"0"`. -/
def rowZeroFinish : List String :=
  ["2024/01/01", "東京", "晴", "1", "レース", "", "10", "1", "1", "3.5", "1", "0", "J", "55.0", "芝1200"]

/-- A 15-cell history row with finish cell `"2"`. -/
def rowCleanFinish : List String :=
  ["2024/02/01", "中山", "晴", "2", "レース", "", "12", "2", "4", "6.1", "3", "2", "J", "56.0", "ダ1800"]

/-! **Helper lemmas** about the list combinators used by the engine. -/

theorem foldl_min_le_init (l : List ℝ) (a : ℝ) : l.foldl min a ≤ a := by
  induction l generalizing a with
  | nil => exact le_refl a
  | cons b t ih => exact le_trans (ih (min a b)) (min_le_left a b)

theorem foldl_min_le_mem (l : List ℝ) (a x : ℝ) (hx : x ∈ l) : l.foldl min a ≤ x := by
  induction l generalizing a with
  | nil => cases hx
  | cons b t ih =>
    rcases List.mem_cons.mp hx with rfl | hx
    · exact le_trans (foldl_min_le_init t (min a x)) (min_le_right a x)
    · exact ih (min a b) hx

theorem pyMin_le_mem (l : List ℝ) (x : ℝ) (hx : x ∈ l) : pyMin l ≤ x := by
  cases l with
  | nil => cases hx
  | cons y t =>
    rcases List.mem_cons.mp hx with rfl | hx
    · exact foldl_min_le_init t x
    · exact foldl_min_le_mem t y x hx

theorem init_le_foldl_max (l : List ℝ) (a : ℝ) : a ≤ l.foldl max a := by
  induction l generalizing a with
  | nil => exact le_refl a
  | cons b t ih => exact le_trans (le_max_left a b) (ih (max a b))

theorem mem_le_foldl_max (l : List ℝ) (a x : ℝ) (hx : x ∈ l) : x ≤ l.foldl max a := by
  induction l generalizing a with
  | nil => cases hx
  | cons b t ih =>
    rcases List.mem_cons.mp hx with rfl | hx
    · exact le_trans (le_max_right a x) (init_le_foldl_max t (max a x))
    · exact ih (max a b) hx

theorem mem_le_pyMax (l : List ℝ) (x : ℝ) (hx : x ∈ l) : x ≤ pyMax l := by
  cases l with
  | nil => cases hx
  | cons y t =>
    rcases List.mem_cons.mp hx with rfl | hx
    · exact init_le_foldl_max t x
    · exact mem_le_foldl_max t y x hx

theorem foldl_min_const (l : List ℝ) (c : ℝ) (h : ∀ x ∈ l, x = c) : l.foldl min c = c := by
  induction l with
  | nil => rfl
  | cons b t ih =>
    have hb : b = c := h b (List.mem_cons_self b t)
    subst hb
    rw [List.foldl_cons, min_self]
    exact ih (fun x hx => h x (List.mem_cons_of_mem b hx))

theorem foldl_max_const (l : List ℝ) (c : ℝ) (h : ∀ x ∈ l, x = c) : l.foldl max c = c := by
  induction l with
  | nil => rfl
  | cons b t ih =>
    have hb : b = c := h b (List.mem_cons_self b t)
    subst hb
    rw [List.foldl_cons, max_self]
    exact ih (fun x hx => h x (List.mem_cons_of_mem b hx))

theorem pyMin_const (l : List ℝ) (c : ℝ) (hne : l ≠ []) (h : ∀ x ∈ l, x = c) :
    pyMin l = c := by
  cases l with
  | nil => exact absurd rfl hne
  | cons y t =>
    have hy : y = c := h y (List.mem_cons_self y t)
    subst hy
    exact foldl_min_const t y (fun x hx => h x (List.mem_cons_of_mem y hx))

theorem pyMax_const (l : List ℝ) (c : ℝ) (hne : l ≠ []) (h : ∀ x ∈ l, x = c) :
    pyMax l = c := by
  cases l with
  | nil => exact absurd rfl hne
  | cons y t =>
    have hy : y = c := h y (List.mem_cons_self y t)
    subst hy
    exact foldl_max_const t y (fun x hx => h x (List.mem_cons_of_mem y hx))

theorem sum_map_div {α : Type} (l : List α) (f : α → ℝ) (c : ℝ) :
    (l.map (fun x => f x / c)).sum = (l.map f).sum / c := by
  induction l with
  | nil => simp
  | cons a t ih => simp [ih, add_div]

theorem sum_map_const_mem {α : Type} (l : List α) (f : α → ℝ) (c : ℝ)
    (h : ∀ x ∈ l, f x = c) : (l.map f).sum = l.length * c := by
  induction l with
  | nil => simp
  | cons a t ih =>
    have ha : f a = c := h a (List.mem_cons_self a t)
    rw [List.map_cons, List.sum_cons, ha, ih (fun x hx => h x (List.mem_cons_of_mem a hx))]
    push_cast [List.length_cons]
    ring

theorem enum_map_proj {α β : Type} (l : List α) (g : α → β) :
    l.enum.map (fun iq => g iq.2) = l.map g := by
  have h1 : (fun iq : ℕ × α => g iq.2) = g ∘ Prod.snd := rfl
  rw [h1, ← List.map_map, List.enum_map_snd]

theorem mem_of_mem_enum {α : Type} {l : List α} {iq : ℕ × α} (h : iq ∈ l.enum) :
    iq.2 ∈ l := by
  have := List.mem_map_of_mem Prod.snd h
  rwa [List.enum_map_snd] at this

/-! **Stability of the descending sort.**  For every score value `k`,
filtering the sorted list at `k` returns exactly the input's entries
with score `k`, in input order. -/

theorem filter_orderedInsert (k : ℝ) (a : Prediction) (l : List Prediction) :
    (List.orderedInsert sortRel a l).filter (fun q => decide (q.score = k)) =
      ((a :: l).filter (fun q => decide (q.score = k))) := by
  induction l with
  | nil => rfl
  | cons b t ih =>
    by_cases hab : sortRel a b
    · rw [List.orderedInsert, if_pos hab]
    · rw [List.orderedInsert, if_neg hab]
      have hlt : a.score < b.score := lt_of_not_le hab
      by_cases hb : b.score = k
      · have ha : ¬a.score = k := by
          intro ha
          exact hab (le_of_eq (hb.trans ha.symm))
        simp only [List.filter_cons, decide_eq_true_eq, ih, if_pos hb, if_neg ha]
      · simp only [List.filter_cons, decide_eq_true_eq, ih, if_neg hb]

theorem filter_sortPreds (k : ℝ) (l : List Prediction) :
    (sortPreds l).filter (fun q => decide (q.score = k)) =
      l.filter (fun q => decide (q.score = k)) := by
  induction l with
  | nil => rfl
  | cons a t ih =>
    have h1 : sortPreds (a :: t) = List.orderedInsert sortRel a (sortPreds t) := rfl
    rw [h1, filter_orderedInsert k a (sortPreds t)]
    simp only [List.filter_cons, ih]

/-! **Facts about the decorated forecast list.** -/

theorem totalExp_pos (p : Prediction) (ps : List Prediction) : 0 < totalExp (p :: ps) := by
  apply List.sum_pos
  · intro x hx
    rcases List.mem_map.mp hx with ⟨q, _, rfl⟩
    exact Real.exp_pos _
  · simp

theorem rankForecasts_cons (p : Prediction) (ps : List Prediction) :
    rankForecasts (p :: ps) = some (forecastsOf (p :: ps)) := by
  rw [rankForecasts, if_neg (ne_of_gt (totalExp_pos p ps))]

theorem sortPreds_ne_nil {l : List Prediction} (h : l ≠ []) : sortPreds l ≠ [] := by
  intro hs
  apply h
  have := (List.perm_insertionSort sortRel l).length_eq
  rw [sortPreds] at hs
  rw [hs] at this
  exact List.length_eq_zero.mp this.symm

theorem mem_sortPreds {l : List Prediction} {q : Prediction} :
    q ∈ sortPreds l ↔ q ∈ l :=
  (List.perm_insertionSort sortRel l).mem_iff

/-- Every score of a member is between the Python min and max of the
score list. -/
theorem score_bounds {l : List Prediction} {q : Prediction} (hq : q ∈ l) :
    pyMin (scoresOf l) ≤ q.score ∧ q.score ≤ pyMax (scoresOf l) := by
  have hmem : q.score ∈ scoresOf l := List.mem_map_of_mem Prediction.score hq
  exact ⟨pyMin_le_mem _ _ hmem, mem_le_pyMax _ _ hmem⟩

/-- Strict monotonicity of the softmax weight in the composite score,
for members of the scored list. -/
theorem softmaxWeight_strictMono {l : List Prediction} {q q' : Prediction}
    (hq : q ∈ l) (hq' : q' ∈ l) (hlt : q'.score < q.score) :
    Real.exp (minmaxNorm (pyMin (scoresOf l)) (pyMax (scoresOf l)) q'.score / 0.3) <
      Real.exp (minmaxNorm (pyMin (scoresOf l)) (pyMax (scoresOf l)) q.score / 0.3) := by
  set mn := pyMin (scoresOf l)
  set mx := pyMax (scoresOf l)
  by_cases hcase : mx > mn
  · have hd : 0 < mx - mn := by linarith
    have hnorm : minmaxNorm mn mx q'.score < minmaxNorm mn mx q.score := by
      rw [minmaxNorm, minmaxNorm, if_pos hcase, if_pos hcase]
      rw [div_lt_div_iff₀ hd hd]
      exact mul_lt_mul_of_pos_right (sub_lt_sub_right hlt mn) hd
    exact Real.exp_lt_exp.mpr ((div_lt_div_iff_of_pos_right (by norm_num : (0:ℝ) < 0.3)).mpr hnorm)
  · exfalso
    have h1 := (score_bounds hq).2
    have h2 := (score_bounds hq').1
    have : mx ≤ mn := le_of_not_lt hcase
    linarith

/-! **Projections of `calculate_score`.** -/

theorem calc_recent (W : Weights) (h : Horse) (ri : RaceInfo) (all : List Horse) :
    (calculate_score W h ri all).details.recent = recent_score h := rfl

theorem calc_odds (W : Weights) (h : Horse) (ri : RaceInfo) (all : List Horse) :
    (calculate_score W h ri all).details.odds = odds_score h := rfl

theorem calc_total (W : Weights) (h : Horse) (ri : RaceInfo) (all : List Horse) :
    (calculate_score W h ri all).total =
      recent_score h * W.recent + basic_score h * W.basic +
      distance_score h ri * W.distance + course_score h ri * W.course +
      draw_score h ri all * W.draw + odds_score h * W.odds +
      stability_score h * W.stability + weight_score h all * W.weight := rfl

/-! **Bounds on the eight sub-scores.** -/

theorem finishScore_bounds (f : ℤ) (hf : 1 ≤ f) :
    0 ≤ finishScore f ∧ finishScore f ≤ 100 := by
  have h1 : (1 : ℝ) ≤ (f : ℝ) := by exact_mod_cast hf
  refine ⟨le_max_left _ _, max_le (by norm_num) (by nlinarith)⟩

theorem zipWith_weighted_sum_bounds {α : Type} (f : α → ℝ) (xs : List α) (ws : List ℝ)
    (hx : ∀ x ∈ xs, 0 ≤ f x ∧ f x ≤ 100) (hw : ∀ w ∈ ws, 0 ≤ w) :
    0 ≤ (xs.zipWith (fun x w => f x * w) ws).sum ∧
      (xs.zipWith (fun x w => f x * w) ws).sum ≤ 100 * ws.sum := by
  induction xs generalizing ws with
  | nil =>
    have : 0 ≤ ws.sum := List.sum_nonneg hw
    simp only [List.zipWith_nil_left, List.sum_nil]
    constructor
    · exact le_refl 0
    · positivity
  | cons x xs ih =>
    cases ws with
    | nil => simp
    | cons w ws' =>
      have hxw := hx x (List.mem_cons_self x xs)
      have hww := hw w (List.mem_cons_self w ws')
      have ih' := ih ws' (fun y hy => hx y (List.mem_cons_of_mem x hy))
        (fun v hv => hw v (List.mem_cons_of_mem w hv))
      simp only [List.zipWith_cons_cons, List.sum_cons]
      constructor
      · have : 0 ≤ f x * w := mul_nonneg hxw.1 hww
        linarith [ih'.1]
      · have h1 : f x * w ≤ 100 * w := mul_le_mul_of_nonneg_right hxw.2 hww
        have h2 := ih'.2
        linarith

theorem countP_ratio_bounds {α : Type} (l : List α) (p : α → Bool) (hne : l ≠ []) :
    0 ≤ (l.countP p : ℝ) / l.length ∧ (l.countP p : ℝ) / l.length ≤ 1 := by
  have hlen : 0 < l.length := List.length_pos.mpr hne
  have hlenR : (0 : ℝ) < l.length := by exact_mod_cast hlen
  constructor
  · positivity
  · rw [div_le_one hlenR]
    exact_mod_cast List.countP_le_length p

theorem recent_score_bounds (h : Horse) (hfin : ∀ r ∈ h.results, 1 ≤ r.finish) :
    0 ≤ recent_score h ∧ recent_score h ≤ 100 := by
  rw [recent_score]
  by_cases he : h.results.isEmpty
  · rw [if_pos he]; norm_num
  · rw [if_neg he]
    have hw : ∀ w ∈ innerWeights, 0 ≤ w := by
      intro w hw
      simp only [innerWeights, List.mem_cons, List.not_mem_nil, or_false] at hw
      rcases hw with rfl | rfl | rfl | rfl | rfl <;> norm_num
    have hx : ∀ r ∈ h.results.take 5, 0 ≤ finishScore r.finish ∧ finishScore r.finish ≤ 100 :=
      fun r hr => finishScore_bounds r.finish (hfin r (List.mem_of_mem_take hr))
    have hb := zipWith_weighted_sum_bounds (fun r => finishScore r.finish)
      (h.results.take 5) innerWeights hx hw
    have hsum : innerWeights.sum = 1 := by norm_num [innerWeights]
    exact ⟨hb.1, by nlinarith [hb.2]⟩

theorem basic_score_bounds (h : Horse) : 0 ≤ basic_score h ∧ basic_score h ≤ 100 := by
  rw [basic_score]
  by_cases he : h.results.isEmpty
  · rw [if_pos he]; norm_num
  · rw [if_neg he]
    have hne : h.results ≠ [] := fun hnil => he (by simp [hnil])
    have h1 := countP_ratio_bounds h.results (fun r => decide (r.finish = 1)) hne
    have h2 := countP_ratio_bounds h.results (fun r => decide (r.finish ≤ 3)) hne
    constructor <;> nlinarith [h1.1, h1.2, h2.1, h2.2]

theorem place_ratio_if_bounds (l : List RaceResult) :
    0 ≤ (if l.isEmpty = false then
        ((l.countP (fun r => decide (r.finish ≤ 3)) : ℝ) / l.length) * 100 else 50) ∧
      (if l.isEmpty = false then
        ((l.countP (fun r => decide (r.finish ≤ 3)) : ℝ) / l.length) * 100 else 50) ≤ 100 := by
  split
  · rename_i hne
    have hne' : l ≠ [] := fun hnil => by simp [hnil] at hne
    have hb := countP_ratio_bounds l (fun r => decide (r.finish ≤ 3)) hne'
    constructor <;> nlinarith [hb.1, hb.2]
  · norm_num

theorem distance_score_bounds (h : Horse) (ri : RaceInfo) :
    0 ≤ distance_score h ri ∧ distance_score h ri ≤ 100 := by
  rw [distance_score]
  split
  · exact place_ratio_if_bounds (h.results.filter (fun r => decide (|r.distance - ri.distance| ≤ 100)))
  · norm_num

theorem course_score_bounds (h : Horse) (ri : RaceInfo) :
    0 ≤ course_score h ri ∧ course_score h ri ≤ 100 := by
  rw [course_score]
  split
  · exact place_ratio_if_bounds (h.results.filter (fun r => decide (ri.course.toList <:+: r.course.toList)))
  · norm_num

theorem draw_score_bounds (h : Horse) (ri : RaceInfo) (all : List Horse)
    (hnum : 0 ≤ h.number ∧ h.number ≤ (all.length : ℤ)) :
    0 ≤ draw_score h ri all ∧ draw_score h ri all ≤ 100 := by
  rw [draw_score]
  split
  · rename_i hcond
    have h1 : 1 ≤ h.number := lt_of_le_of_ne hnum.1 (Ne.symm hcond.1)
    have hlen : 1 ≤ (all.length : ℤ) := le_trans h1 hnum.2
    set d : ℤ := max ((all.length : ℤ) - 1) 1 with hd
    have hd1 : 1 ≤ d := le_max_right _ 1
    have hdR : (1 : ℝ) ≤ (d : ℝ) := by exact_mod_cast hd1
    have hdpos : (0 : ℝ) < (d : ℝ) := by linarith
    have hnumR : (1 : ℝ) ≤ (h.number : ℝ) := by exact_mod_cast h1
    have hle : (h.number : ℝ) - 1 ≤ (d : ℝ) := by
      have : h.number - 1 ≤ d := le_trans (by linarith [hnum.2]) (le_max_left _ 1)
      exact_mod_cast this
    have hpos : 0 ≤ ((h.number : ℝ) - 1) / (d : ℝ) :=
      div_nonneg (by linarith) (le_of_lt hdpos)
    have hle1 : ((h.number : ℝ) - 1) / (d : ℝ) ≤ 1 := by
      rw [div_le_one hdpos]; linarith
    split <;> constructor <;> nlinarith
  · norm_num

theorem odds_score_bounds (h : Horse) (hodds : h.odds ≤ 0 ∨ 1 ≤ h.odds) :
    0 ≤ odds_score h ∧ odds_score h ≤ 100 := by
  rw [odds_score]
  split
  · rename_i hcond
    have h1 : 1 ≤ h.odds := by
      rcases hodds with hle | hge
      · exact absurd hcond.2 (not_lt.mpr hle)
      · exact hge
    have hlog : 0 ≤ Real.log h.odds := Real.log_nonneg h1
    exact ⟨le_max_left _ _, max_le (by norm_num) (by nlinarith)⟩
  · norm_num

theorem stability_score_bounds (h : Horse) :
    0 ≤ stability_score h ∧ stability_score h ≤ 100 := by
  rw [stability_score]
  split
  · set fs := (h.results.take 10).map (fun r => ((r.finish : ℤ) : ℝ)) with hfs
    have hstd : 0 ≤ if 1 < fs.length then stdev fs else 0 := by
      split
      · exact Real.sqrt_nonneg _
      · exact le_refl 0
    exact ⟨le_max_left _ _, max_le (by norm_num) (by nlinarith)⟩
  · norm_num

theorem weight_score_bounds (h : Horse) (all : List Horse) :
    0 ≤ weight_score h all ∧ weight_score h all ≤ 100 := by
  rw [weight_score]
  split
  · exact ⟨le_max_left _ _, max_le (by norm_num) (min_le_left _ _)⟩
  · norm_num

/-! **Claim C3.** -/

/-- **C3 (amended).**  Provided every recorded finish is at least 1, the
entrant's odds are unset/non-positive or at least 1, and the program
number lies between 0 and the field size, each of the eight sub-scores
computed by `calculate_score` lies in `[0, 100]`; for a nonnegative
weight preset summing to at most 1 (both presets do) the weighted
composite then also lies in `[0, 100]`.  Without these side conditions
the claim is false, see the counterexample. -/
theorem subscores_and_composite_bounded (W : Weights) (h : Horse) (ri : RaceInfo)
    (all : List Horse)
    (hW : (0 ≤ W.recent ∧ 0 ≤ W.basic ∧ 0 ≤ W.distance ∧ 0 ≤ W.course ∧ 0 ≤ W.draw ∧
        0 ≤ W.odds ∧ 0 ≤ W.stability ∧ 0 ≤ W.weight) ∧
      W.recent + W.basic + W.distance + W.course + W.draw + W.odds + W.stability + W.weight ≤ 1)
    (hfin : ∀ r ∈ h.results, 1 ≤ r.finish)
    (hodds : h.odds ≤ 0 ∨ 1 ≤ h.odds)
    (hnum : 0 ≤ h.number ∧ h.number ≤ (all.length : ℤ)) :
    (∀ d ∈ [(calculate_score W h ri all).details.recent,
        (calculate_score W h ri all).details.basic,
        (calculate_score W h ri all).details.distance,
        (calculate_score W h ri all).details.course,
        (calculate_score W h ri all).details.draw,
        (calculate_score W h ri all).details.odds,
        (calculate_score W h ri all).details.stability,
        (calculate_score W h ri all).details.weight], 0 ≤ d ∧ d ≤ 100) ∧
      0 ≤ (calculate_score W h ri all).total ∧ (calculate_score W h ri all).total ≤ 100 := by
  have b1 := recent_score_bounds h hfin
  have b2 := basic_score_bounds h
  have b3 := distance_score_bounds h ri
  have b4 := course_score_bounds h ri
  have b5 := draw_score_bounds h ri all hnum
  have b6 := odds_score_bounds h hodds
  have b7 := stability_score_bounds h
  have b8 := weight_score_bounds h all
  obtain ⟨⟨w1, w2, w3, w4, w5, w6, w7, w8⟩, hsum⟩ := hW
  constructor
  · intro d hd
    simp only [List.mem_cons, List.not_mem_nil, or_false] at hd
    rcases hd with rfl | rfl | rfl | rfl | rfl | rfl | rfl | rfl
    · exact b1
    · exact b2
    · exact b3
    · exact b4
    · exact b5
    · exact b6
    · exact b7
    · exact b8
  · rw [calc_total]
    constructor
    · have := mul_nonneg b1.1 w1
      have := mul_nonneg b2.1 w2
      have := mul_nonneg b3.1 w3
      have := mul_nonneg b4.1 w4
      have := mul_nonneg b5.1 w5
      have := mul_nonneg b6.1 w6
      have := mul_nonneg b7.1 w7
      have := mul_nonneg b8.1 w8
      linarith
    · have := mul_le_mul_of_nonneg_right b1.2 w1
      have := mul_le_mul_of_nonneg_right b2.2 w2
      have := mul_le_mul_of_nonneg_right b3.2 w3
      have := mul_le_mul_of_nonneg_right b4.2 w4
      have := mul_le_mul_of_nonneg_right b5.2 w5
      have := mul_le_mul_of_nonneg_right b6.2 w6
      have := mul_le_mul_of_nonneg_right b7.2 w7
      have := mul_le_mul_of_nonneg_right b8.2 w8
      linarith

/-- **C3 witness**: the side conditions hold at a concrete input and the
bound follows from `subscores_and_composite_bounded`. -/
theorem subscores_and_composite_bounded_witness :
    0 ≤ (calculate_score cliWeights horseNoOdds ri0 [horseNoOdds]).total ∧
      (calculate_score cliWeights horseNoOdds ri0 [horseNoOdds]).total ≤ 100 :=
  (subscores_and_composite_bounded cliWeights horseNoOdds ri0 [horseNoOdds]
    (by norm_num [cliWeights])
    (by simp [horseNoOdds])
    (Or.inl (by norm_num [horseNoOdds]))
    (by norm_num [horseNoOdds])).2

/-- **C3 counterexample**: for the reachable entrant `horseHalfOdds`
(posted odds `0.5`) the odds-implied sub-score exceeds 100, refuting the
claim that every sub-score lies in `[0, 100]`. -/
theorem odds_subscore_exceeds_100 :
    100 < (calculate_score cliWeights horseHalfOdds ri0 [horseHalfOdds]).details.odds := by
  rw [calc_odds, odds_score]
  have hodds : horseHalfOdds.odds = 0.5 := rfl
  rw [if_pos (by rw [hodds]; norm_num : horseHalfOdds.odds ≠ 0 ∧ 0 < horseHalfOdds.odds)]
  rw [hodds]
  have hlog : Real.log 0.5 < 0 := Real.log_neg (by norm_num) (by norm_num)
  have h1 : (100 : ℝ) < 100 - Real.log 0.5 * 18 := by nlinarith
  exact lt_of_lt_of_le h1 (le_max_right 0 _)

/-! **Claim C4.** -/

/-- **C4 (amended).**  For positive posted odds the odds-implied
sub-score equals `max(0, 100 - log(odds) * 18)` (so odds 1 gives 100 and
odds e gives 82); for unknown odds (`odds = 0`) the sub-score is the
neutral default 50, not 0. -/
theorem odds_subscore_spec (W : Weights) (h : Horse) (ri : RaceInfo) (all : List Horse) :
    (0 < h.odds →
        (calculate_score W h ri all).details.odds = max 0 (100 - Real.log h.odds * 18)) ∧
      (h.odds = 0 → (calculate_score W h ri all).details.odds = 50) ∧
      (h.odds = 1 → (calculate_score W h ri all).details.odds = 100) ∧
      (h.odds = Real.exp 1 → (calculate_score W h ri all).details.odds = 82) := by
  rw [calc_odds]
  refine ⟨?_, ?_, ?_, ?_⟩
  · intro hpos
    rw [odds_score, if_pos ⟨ne_of_gt hpos, hpos⟩]
  · intro h0
    rw [odds_score, if_neg (by rw [h0]; simp)]
  · intro h1
    rw [odds_score, if_pos (by rw [h1]; norm_num), h1, Real.log_one]
    norm_num
  · intro he
    rw [odds_score, if_pos (by rw [he]; exact ⟨Real.exp_ne_zero 1, Real.exp_pos 1⟩), he,
      Real.log_exp]
    norm_num

/-- **C4 witness**: at odds exactly 1 the sub-score is 100. -/
theorem odds_subscore_spec_witness :
    (calculate_score cliWeights horseEvenOdds ri0 [horseEvenOdds]).details.odds = 100 :=
  (odds_subscore_spec cliWeights horseEvenOdds ri0 [horseEvenOdds]).2.2.1 rfl

/-- **C4 counterexample**: for an entrant with unknown odds the
odds-implied sub-score is 50, not 0 as claimed. -/
theorem odds_unknown_is_50 :
    (calculate_score cliWeights horseNoOdds ri0 [horseNoOdds]).details.odds = 50 ∧
      (calculate_score cliWeights horseNoOdds ri0 [horseNoOdds]).details.odds ≠ 0 := by
  have h : (calculate_score cliWeights horseNoOdds ri0 [horseNoOdds]).details.odds = 50 := by
    rw [calc_odds, odds_score, if_neg (by simp [horseNoOdds])]
  exact ⟨h, by rw [h]; norm_num⟩

/-! **Claim C10.** -/

/-- **C10 (amended).**  The recent-form sub-score of the entrant with
finishes `[1, 2, 1, 3, 2]` and no other data is the weighted sum of
`{100, 88, 100, 76, 88}` under `{0.35, 0.25, 0.2, 0.12, 0.08}`, which is
exactly 93.16 (the spec's figure 93.96 is wrong), independently of the
race and of the other entrants. -/
theorem recent_form_9316 (W : Weights) (ri : RaceInfo) (all : List Horse) :
    (calculate_score W horseRecentForm ri all).details.recent = 93.16 := by
  rw [calc_recent]
  norm_num [recent_score, horseRecentForm, innerWeights, finishScore]

/-- **C10 counterexample**: the recent-form sub-score at the example
history is 93.16 and in particular differs from the claimed 93.96. -/
theorem recent_form_not_9396 :
    (calculate_score cliWeights horseRecentForm ri0 [horseRecentForm]).details.recent = 93.16 ∧
      (calculate_score cliWeights horseRecentForm ri0 [horseRecentForm]).details.recent ≠ 93.96 := by
  have h : (calculate_score cliWeights horseRecentForm ri0 [horseRecentForm]).details.recent
      = 93.16 := by
    rw [calc_recent]
    norm_num [recent_score, horseRecentForm, innerWeights, finishScore]
  exact ⟨h, by rw [h]; norm_num⟩

/-! **Claim C5.** -/

/-- **C5 (amended).**  A history row whose finish cell is not a plain
digit string is excluded entirely, and every returned `HistoricalRun`
takes its finish from a digit-string finish cell; hence, provided no
finish cell is a zero numeral (such as `"0"`, which the code does accept
and records as finish 0), every returned finish is at least 1. -/
theorem history_finish_spec (rows : List (List String))
    (hrows : ∀ row ∈ rows, isDigits (cellAt row 11) = true → 1 ≤ natOfDigits (cellAt row 11)) :
    (∀ res ∈ parse_horse_history rows, 1 ≤ res.finish) ∧
      (∀ cells : List String, isDigits (cellAt cells 11) = false → parseResultRow cells = none) := by
  constructor
  · intro res hres
    have hmem : res ∈ rows.filterMap parseResultRow := List.mem_of_mem_take hres
    rcases List.mem_filterMap.mp hmem with ⟨row, hrow, hparse⟩
    rw [parseResultRow] at hparse
    split at hparse
    · cases hparse
    · dsimp only at hparse
      split at hparse
      · rename_i hdig
        injection hparse with hres'
        subst hres'
        have h1 := hrows row hrow hdig
        show (1 : ℤ) ≤ (natOfDigits (cellAt row 11) : ℤ)
        exact_mod_cast h1
      · cases hparse
  · intro cells hfalse
    rw [parseResultRow]
    split
    · rfl
    · rw [if_neg (by rw [hfalse]; exact Bool.false_ne_true)]

/-- **C5 witness**: a clean row with finish cell `"2"` satisfies the
side condition and yields only finishes at least 1. -/
theorem history_finish_spec_witness :
    (∀ row ∈ [rowCleanFinish], isDigits (cellAt row 11) = true → 1 ≤ natOfDigits (cellAt row 11)) ∧
      ∀ res ∈ parse_horse_history [rowCleanFinish], 1 ≤ res.finish :=
  ⟨by decide, (history_finish_spec [rowCleanFinish] (by decide)).1⟩

/-- **C5 counterexample**: a 15-cell row whose finish cell is the digit
string `"0"` is accepted and recorded with finish 0, refuting the claim
that every returned run has a 1-based finish. -/
theorem history_zero_finish :
    (parse_horse_history [rowZeroFinish]).map RaceResult.finish = [0] := by
  decide

/-! **Claim C6.** -/

/-- **C6.**  An entrant appears in the output of the entry extractor if
and only if some row parses to it and it has a non-empty name and a
program number at least 1; all other parsed rows are dropped. -/
theorem entrant_included_iff (rows : List RawRow) (h : Horse) :
    h ∈ parse_race_page_horses rows ↔
      (∃ row ∈ rows, parseHorseRow row = h) ∧ h.name ≠ "" ∧ 1 ≤ h.number := by
  rw [parse_race_page_horses, List.mem_filter]
  simp only [List.mem_map, decide_eq_true_eq]
  constructor
  · rintro ⟨⟨row, hrow, rfl⟩, hname, hnum⟩
    exact ⟨⟨row, hrow, rfl⟩, hname, by omega⟩
  · rintro ⟨⟨row, hrow, rfl⟩, hname, hnum⟩
    exact ⟨⟨row, hrow, rfl⟩, hname, by omega⟩

/-! **Helper lemmas about `predict`.** -/

theorem mkPred_score (W : Weights) (ri : RaceInfo) (all : List Horse) (h : Horse) :
    (mkPred W ri all h).score = (calculate_score W h ri all).total := rfl

theorem totalExp_pos_of_ne_nil {L : List Prediction} (h : L ≠ []) : 0 < totalExp L := by
  cases L with
  | nil => exact absurd rfl h
  | cons p ps => exact totalExp_pos p ps

theorem rankForecasts_of_ne_nil {L : List Prediction} (h : L ≠ []) :
    rankForecasts L = some (forecastsOf L) := by
  cases L with
  | nil => exact absurd rfl h
  | cons p ps => exact rankForecasts_cons p ps

theorem predict_eq_some (W : Weights) (horses : List Horse) (ri : RaceInfo)
    (hne : horses ≠ []) :
    predict W horses ri = some (forecastsOf (sortPreds (horses.map (mkPred W ri horses)))) ∧
      sortPreds (horses.map (mkPred W ri horses)) ≠ [] := by
  have hs : horses.map (mkPred W ri horses) ≠ [] := by
    intro hm
    exact hne (List.map_eq_nil_iff.mp hm)
  have hL := sortPreds_ne_nil hs
  exact ⟨by rw [predict]; exact rankForecasts_of_ne_nil hL, hL⟩

theorem map_win_prob (L : List Prediction) :
    (forecastsOf L).map Forecast.win_prob =
      L.map (fun q =>
        Real.exp (minmaxNorm (pyMin (scoresOf L)) (pyMax (scoresOf L)) q.score / 0.3) /
          totalExp L) := by
  rw [forecastsOf, List.map_map]
  exact enum_map_proj L (fun q =>
    Real.exp (minmaxNorm (pyMin (scoresOf L)) (pyMax (scoresOf L)) q.score / 0.3) / totalExp L)

theorem map_score_forecasts (L : List Prediction) :
    (forecastsOf L).map Forecast.score = L.map Prediction.score := by
  rw [forecastsOf, List.map_map]
  exact enum_map_proj L Prediction.score

theorem map_pair_forecasts (L : List Prediction) :
    (forecastsOf L).map (fun f => (f.horse, f.score)) =
      L.map (fun q => (q.horse, q.score)) := by
  rw [forecastsOf, List.map_map]
  exact enum_map_proj L (fun q => (q.horse, q.score))

theorem mem_forecastsOf {L : List Prediction} {f : Forecast} (hf : f ∈ forecastsOf L) :
    ∃ q ∈ L, f.score = q.score ∧
      f.win_prob =
        Real.exp (minmaxNorm (pyMin (scoresOf L)) (pyMax (scoresOf L)) q.score / 0.3) /
          totalExp L ∧
      f.norm_score = minmaxNorm (pyMin (scoresOf L)) (pyMax (scoresOf L)) q.score := by
  rcases List.mem_map.mp hf with ⟨iq, hiq, rfl⟩
  exact ⟨iq.2, mem_of_mem_enum hiq, rfl, rfl, rfl⟩

theorem filter_pair_map (k : ℝ) (l : List Prediction) :
    (l.map (fun q => (q.horse, q.score))).filter (fun x => decide (x.2 = k)) =
      (l.filter (fun q => decide (q.score = k))).map (fun q => (q.horse, q.score)) := by
  rw [List.filter_map]
  rfl

/-! **Claim C1.** -/

/-- **C1.**  For every non-empty entrant list the ranking step succeeds
and produces win probabilities that are each strictly positive and sum
to exactly 1 (in the idealised real arithmetic), whatever the composite
scores are. -/
theorem predict_probs_pos_sum_one (W : Weights) (horses : List Horse) (ri : RaceInfo)
    (hne : horses ≠ []) :
    ∃ fs, predict W horses ri = some fs ∧
      (fs.map Forecast.win_prob).sum = 1 ∧ ∀ f ∈ fs, 0 < f.win_prob := by
  obtain ⟨hpred, hL⟩ := predict_eq_some W horses ri hne
  have hT := totalExp_pos_of_ne_nil hL
  refine ⟨_, hpred, ?_, ?_⟩
  · rw [map_win_prob, sum_map_div]
    have hTdef : (List.map (fun q =>
        Real.exp (minmaxNorm (pyMin (scoresOf (sortPreds (horses.map (mkPred W ri horses)))))
          (pyMax (scoresOf (sortPreds (horses.map (mkPred W ri horses))))) q.score / 0.3))
        (sortPreds (horses.map (mkPred W ri horses)))).sum =
        totalExp (sortPreds (horses.map (mkPred W ri horses))) := rfl
    rw [hTdef]
    exact div_self (ne_of_gt hT)
  · intro f hf
    rcases mem_forecastsOf hf with ⟨q, hq, hsc, hwp, hnorm⟩
    rw [hwp]
    exact div_pos (Real.exp_pos _) hT

/-- **C1 witness**. -/
theorem predict_probs_pos_sum_one_witness :
    ([horseNoOdds] : List Horse) ≠ [] ∧
      ∃ fs, predict cliWeights [horseNoOdds] ri0 = some fs ∧
        (fs.map Forecast.win_prob).sum = 1 ∧ ∀ f ∈ fs, 0 < f.win_prob :=
  ⟨by simp, predict_probs_pos_sum_one cliWeights [horseNoOdds] ri0 (by simp)⟩

/-! **Claim C2.** -/

/-- **C2 (amended).**  The ranking step faults (`none`, the `ValueError`
of `min` over an empty sequence) exactly on an empty entrant list — it
has no explicit empty branch returning an empty Forecast sequence — and
for every non-empty list, including a degenerate all-equal score field,
it succeeds without any division-by-zero fault. -/
theorem predict_none_iff_empty (W : Weights) (horses : List Horse) (ri : RaceInfo) :
    predict W horses ri = none ↔ horses = [] := by
  constructor
  · intro hnone
    by_contra hne
    obtain ⟨hpred, -⟩ := predict_eq_some W horses ri hne
    rw [hpred] at hnone
    cases hnone
  · rintro rfl
    rfl

/-- **C2 counterexample**: on zero entrants the ranking step faults
(modelled `none`) instead of returning the claimed empty Forecast
sequence. -/
theorem predict_empty_faults : predict cliWeights [] ri0 = none := rfl

/-! **Claim C7.** -/

/-- **C7.**  Within one ranking run, an entrant with a strictly higher
composite score receives a strictly higher win probability: the min-max
normalisation followed by softmax at temperature 0.3 is strictly
monotone in the composite score. -/
theorem predict_prob_strict_mono (W : Weights) (horses : List Horse) (ri : RaceInfo)
    (hne : horses ≠ []) :
    ∃ fs, predict W horses ri = some fs ∧
      ∀ f ∈ fs, ∀ g ∈ fs, g.score < f.score → g.win_prob < f.win_prob := by
  obtain ⟨hpred, hL⟩ := predict_eq_some W horses ri hne
  have hT := totalExp_pos_of_ne_nil hL
  refine ⟨_, hpred, ?_⟩
  intro f hf g hg hlt
  rcases mem_forecastsOf hf with ⟨q, hq, hsf, hwf, -⟩
  rcases mem_forecastsOf hg with ⟨q', hq', hsg, hwg, -⟩
  rw [hsf, hsg] at hlt
  rw [hwf, hwg]
  exact (div_lt_div_iff_of_pos_right hT).mpr (softmaxWeight_strictMono hq hq' hlt)

/-- **C7 witness**. -/
theorem predict_prob_strict_mono_witness :
    ([horseNoOdds] : List Horse) ≠ [] ∧
      ∃ fs, predict cliWeights [horseNoOdds] ri0 = some fs ∧
        ∀ f ∈ fs, ∀ g ∈ fs, g.score < f.score → g.win_prob < f.win_prob :=
  ⟨by simp, predict_prob_strict_mono cliWeights [horseNoOdds] ri0 (by simp)⟩

/-! **Claim C8.** -/

/-- **C8.**  If all entrants of a non-empty field have identical
composite scores, the degenerate branch assigns every entrant the
normalised score 0.5 and the win probability exactly `1 / N`. -/
theorem predict_uniform_when_equal (W : Weights) (horses : List Horse) (ri : RaceInfo)
    (hne : horses ≠ [])
    (heq : ∀ h1 ∈ horses, ∀ h2 ∈ horses,
      (calculate_score W h1 ri horses).total = (calculate_score W h2 ri horses).total) :
    ∃ fs, predict W horses ri = some fs ∧
      ∀ f ∈ fs, f.norm_score = 0.5 ∧ f.win_prob = 1 / (horses.length : ℝ) := by
  obtain ⟨hpred, hL⟩ := predict_eq_some W horses ri hne
  have hmemL : ∀ q ∈ sortPreds (horses.map (mkPred W ri horses)),
      ∃ h1 ∈ horses, mkPred W ri horses h1 = q := by
    intro q hq
    exact List.mem_map.mp (mem_sortPreds.mp hq)
  obtain ⟨p, ps, hcons⟩ : ∃ p ps, sortPreds (horses.map (mkPred W ri horses)) = p :: ps := by
    cases hc : sortPreds (horses.map (mkPred W ri horses)) with
    | nil => exact absurd hc hL
    | cons p ps => exact ⟨p, ps, rfl⟩
  have hallc : ∀ x ∈ scoresOf (sortPreds (horses.map (mkPred W ri horses))), x = p.score := by
    intro x hx
    rcases List.mem_map.mp hx with ⟨q, hqL, rfl⟩
    rcases hmemL q hqL with ⟨h1, hh1, hq1⟩
    rcases hmemL p (by rw [hcons]; exact List.mem_cons_self p ps) with ⟨h2, hh2, hp2⟩
    rw [← hq1, ← hp2, mkPred_score, mkPred_score]
    exact heq h1 hh1 h2 hh2
  have hsne : scoresOf (sortPreds (horses.map (mkPred W ri horses))) ≠ [] := by
    rw [hcons]
    simp [scoresOf]
  have hmn : pyMin (scoresOf (sortPreds (horses.map (mkPred W ri horses)))) = p.score :=
    pyMin_const _ p.score hsne hallc
  have hmx : pyMax (scoresOf (sortPreds (horses.map (mkPred W ri horses)))) = p.score :=
    pyMax_const _ p.score hsne hallc
  have hnorm : ∀ s : ℝ,
      minmaxNorm (pyMin (scoresOf (sortPreds (horses.map (mkPred W ri horses)))))
        (pyMax (scoresOf (sortPreds (horses.map (mkPred W ri horses))))) s = 0.5 := by
    intro s
    rw [hmn, hmx, minmaxNorm, if_neg (lt_irrefl p.score)]
  have hTeq : totalExp (sortPreds (horses.map (mkPred W ri horses))) =
      ((sortPreds (horses.map (mkPred W ri horses))).length : ℝ) * Real.exp (0.5 / 0.3) := by
    rw [totalExp]
    apply sum_map_const_mem
    intro q hq
    rw [hnorm]
  have hlen : (sortPreds (horses.map (mkPred W ri horses))).length = horses.length := by
    rw [sortPreds, (List.perm_insertionSort sortRel (horses.map (mkPred W ri horses))).length_eq,
      List.length_map]
  have hlenpos : (0 : ℝ) < (horses.length : ℝ) := by
    exact_mod_cast List.length_pos.mpr hne
  refine ⟨_, hpred, ?_⟩
  intro f hf
  rcases mem_forecastsOf hf with ⟨q, hqL, hsc, hwp, hnormf⟩
  refine ⟨by rw [hnormf, hnorm], ?_⟩
  rw [hwp, hnorm, hTeq, hlen]
  have hE : (0 : ℝ) < Real.exp (0.5 / 0.3) := Real.exp_pos _
  rw [div_eq_div_iff (by positivity) (ne_of_gt hlenpos)]
  ring

/-- **C8 witness**. -/
theorem predict_uniform_when_equal_witness :
    ([horseNoOdds] : List Horse) ≠ [] ∧
      ∃ fs, predict cliWeights [horseNoOdds] ri0 = some fs ∧
        ∀ f ∈ fs, f.norm_score = 0.5 ∧
          f.win_prob = 1 / (([horseNoOdds] : List Horse).length : ℝ) :=
  ⟨by simp, predict_uniform_when_equal cliWeights [horseNoOdds] ri0 (by simp)
    (by
      intro h1 hh1 h2 hh2
      simp only [List.mem_singleton] at hh1 hh2
      rw [hh1, hh2])⟩

/-! **Claim C9.** -/

/-- **C9.**  The Forecast sequence is sorted by non-increasing composite
score, and for every score value the entrants carrying it appear in
their extraction (input) order: the sort is stable. -/
theorem predict_sorted_and_stable (W : Weights) (horses : List Horse) (ri : RaceInfo)
    (hne : horses ≠ []) :
    ∃ fs, predict W horses ri = some fs ∧
      List.Sorted (fun a b : ℝ => b ≤ a) (fs.map Forecast.score) ∧
      ∀ k : ℝ, (fs.map (fun f => (f.horse, f.score))).filter (fun x => decide (x.2 = k)) =
        (horses.map (fun h => (h, (calculate_score W h ri horses).total))).filter
          (fun x => decide (x.2 = k)) := by
  obtain ⟨hpred, hL⟩ := predict_eq_some W horses ri hne
  refine ⟨_, hpred, ?_, ?_⟩
  · rw [map_score_forecasts]
    have hs : List.Sorted sortRel (sortPreds (horses.map (mkPred W ri horses))) :=
      List.sorted_insertionSort sortRel (horses.map (mkPred W ri horses))
    exact List.Pairwise.map Prediction.score (fun a b hab => hab) hs
  · intro k
    rw [map_pair_forecasts, filter_pair_map k, filter_sortPreds k, ← filter_pair_map k]
    have hmm : (horses.map (mkPred W ri horses)).map (fun q => (q.horse, q.score)) =
        horses.map (fun h => (h, (calculate_score W h ri horses).total)) := by
      rw [List.map_map]
      rfl
    rw [hmm]

/-- **C9 witness**. -/
theorem predict_sorted_and_stable_witness :
    ([horseNoOdds] : List Horse) ≠ [] ∧
      ∃ fs, predict cliWeights [horseNoOdds] ri0 = some fs ∧
        List.Sorted (fun a b : ℝ => b ≤ a) (fs.map Forecast.score) ∧
        ∀ k : ℝ, (fs.map (fun f => (f.horse, f.score))).filter (fun x => decide (x.2 = k)) =
          (([horseNoOdds] : List Horse).map
            (fun h => (h, (calculate_score cliWeights h ri0 [horseNoOdds]).total))).filter
            (fun x => decide (x.2 = k)) :=
  ⟨by simp, predict_sorted_and_stable cliWeights [horseNoOdds] ri0 (by simp)⟩
